import Mathlib

/-!
# Verification of the lux-patcher synchronization core

Shallow embedding of the core of the `lux-patcher` repository:
* `src/crc.rs` — the path checksum (`calculate_crc`, `update_crc`);
* `src/cache.rs` — the metadata cache (`Cache`, `CacheKey`, `CacheEntry`,
  `load`, `save`, `get`, `insert`);
* `src/patcher.rs` — the sync decision engine (`Patcher::ensure`,
  `Patcher::ensure_file`, `PatcherBuilder::build`).

Machine integers (`u32`, bytes) are embedded as `Nat` with explicit
`% 2 ^ 32` where Rust overflow semantics matter; Rust strings are embedded
as `List Char`; fallible operations return `Except`/`Option`.
-/

namespace LuxPatcher

/-! ## Path checksum — from `src/crc.rs` -/

/-- `CRC_POLY` from `src/crc.rs`. -/
def CRC_POLY : Nat := 0x04C11DB7

/-- `CRC_INIT` from `src/crc.rs`. -/
def CRC_INIT : Nat := 0xFFFFFFFF

/-- `CRC_FXOR` from `src/crc.rs`. -/
def CRC_FXOR : Nat := 0x00000000

/-- One round of the inner loop of `update_crc`: shift left by one (as `u32`,
so modulo `2 ^ 32`), XORing with the polynomial when the shifted-out top bit
was set. -/
def crcRound (crc : Nat) : Nat :=
  if crc &&& 0x80000000 = 0 then (crc <<< 1) % 2 ^ 32
  else ((crc <<< 1) % 2 ^ 32) ^^^ CRC_POLY

/-- `update_crc` from `src/crc.rs`: XOR the byte into the most significant
byte of the register, then run eight rounds of `crcRound`. -/
def update_crc (crc : Nat) (b : Nat) : Nat :=
  crcRound^[8] (crc ^^^ ((b <<< 24) % 2 ^ 32))

/-- Second cleanup step inside `calculate_crc` (`src/crc.rs` lines 25–27):
ASCII uppercase becomes lowercase. -/
def clean_lower (b : Nat) : Nat :=
  if 65 ≤ b ∧ b ≤ 90 then b + 32 else b

/-- The per-byte input cleanup inside `calculate_crc` (`src/crc.rs` lines
20–27): first `/` (byte 47) becomes `\` (byte 92), then ASCII uppercase
becomes lowercase. -/
def clean_byte (b : Nat) : Nat :=
  clean_lower (if b = 47 then 92 else b)

/-- `calculate_crc` from `src/crc.rs`: fold `update_crc` over the cleaned
input bytes, then over four trailing zero bytes, then XOR with `CRC_FXOR`. -/
def calculate_crc (path : List Nat) : Nat :=
  ((List.replicate 4 0).foldl update_crc
    (path.foldl (fun crc b => update_crc crc (clean_byte b)) CRC_INIT)) ^^^ CRC_FXOR

/-- Modelled from the spec (§4.1): per-byte normalization, `/` → `\` and
ASCII uppercase → lowercase, everything else unchanged. -/
def specNormalizeByte (b : Nat) : Nat :=
  if b = 47 then 92
  else if 65 ≤ b ∧ b ≤ 90 then b + 32
  else b

/-- Modelled from the spec (§4.1 and claim C5): the reference CRC
computation — start the register at `0xFFFFFFFF`, mix in every normalized
input byte followed by four zero bytes with the MSB-first shift/XOR step,
and apply no final complement. -/
def specReferenceCrc (p : List Nat) : Nat :=
  (p.map specNormalizeByte ++ List.replicate 4 0).foldl update_crc CRC_INIT

/-! ## Metadata cache — from `src/cache.rs`

The Rust `Cache` wraps a `BTreeMap<String, CacheEntry>`; we embed it as an
association list kept sorted by key (byte-lexicographic, as `BTreeMap`
orders `String`s), with unique keys. Strings are `List Char`. -/

/-- Byte-lexicographic strict order on keys, as `BTreeMap<String, _>`
compares its keys. -/
def keyLt : List Char → List Char → Bool
  | [], [] => false
  | [], _ :: _ => true
  | _ :: _, [] => false
  | a :: as, b :: bs => if a < b then true else if b < a then false else keyLt as bs

/-- `CacheEntry` from `src/cache.rs`: modification time (absent when loaded
from malformed/older data), uncompressed size (`u32`) and content hash
(128-bit MD5 digest). The `f64` mtime is embedded as whole microseconds
since the epoch, matching the 6-fractional-digit cache file format. -/
structure CacheEntry where
  mtime : Option Nat
  size : Nat
  hash : Nat
  deriving DecidableEq, Repr

/-- `CacheKey` from `src/cache.rs`: a wrapped string. -/
structure CacheKey where
  s : List Char
  deriving DecidableEq, Repr

/-- `CacheKey::new` from `src/cache.rs`: replace every `/` by `\`. -/
def CacheKey.new (v : List Char) : CacheKey :=
  ⟨v.map (fun c => if c = '/' then '\\' else c)⟩

/-- Association-list lookup, the embedding of map lookups
(`BTreeMap::get`). -/
def assocGet {κ α : Type} [DecidableEq κ] (k : κ) : List (κ × α) → Option α
  | [] => none
  | p :: rest => if k = p.1 then some p.2 else assocGet k rest

/-- Sorted-insert-or-replace on the entry list, the embedding of
`BTreeMap::insert`. -/
def insertList (k : List Char) (v : CacheEntry) :
    List (List Char × CacheEntry) → List (List Char × CacheEntry)
  | [] => [(k, v)]
  | (k', v') :: rest =>
    if keyLt k k' then (k, v) :: (k', v') :: rest
    else if k = k' then (k, v) :: rest
    else (k', v') :: insertList k v rest

/-- `Cache` from `src/cache.rs`. -/
structure Cache where
  entries : List (List Char × CacheEntry)
  deriving DecidableEq, Repr

/-- `Cache::new`. -/
def Cache.new : Cache := ⟨[]⟩

/-- `Cache::get`. -/
def Cache.get (c : Cache) (key : CacheKey) : Option CacheEntry :=
  assocGet key.s c.entries

/-- `Cache::insert`. -/
def Cache.insert (c : Cache) (key : CacheKey) (value : CacheEntry) : Cache :=
  ⟨insertList key.s value c.entries⟩

/-! ### Cache file serialization

`Cache::save` writes `Display`, one `key,[mtime],size,hash` line per entry;
`Cache::load` splits each line on `,` and parses the fields. The decimal
and hex renderings follow the spec's §6 field contract (`mtime` as a
decimal with six fractional digits, `size` decimal, `hash` as 32 hex
digits, the rendering `assembly_pack::md5::MD5Sum` uses). -/

/-- Decimal digit character for a digit value. -/
def decChar : Nat → Char
  | 0 => '0' | 1 => '1' | 2 => '2' | 3 => '3' | 4 => '4'
  | 5 => '5' | 6 => '6' | 7 => '7' | 8 => '8' | 9 => '9'
  | _ => '*'

/-- Lowercase hex digit character for a digit value. -/
def hexChar : Nat → Char
  | 0 => '0' | 1 => '1' | 2 => '2' | 3 => '3' | 4 => '4'
  | 5 => '5' | 6 => '6' | 7 => '7' | 8 => '8' | 9 => '9'
  | 10 => 'a' | 11 => 'b' | 12 => 'c' | 13 => 'd' | 14 => 'e' | 15 => 'f'
  | _ => '*'

/-- Digit value of a decimal digit character. -/
def charDigit? (c : Char) : Option Nat :=
  if 48 ≤ c.toNat ∧ c.toNat ≤ 57 then some (c.toNat - 48) else none

/-- Digit value of a hex digit character. -/
def charHexDigit? (c : Char) : Option Nat :=
  if 48 ≤ c.toNat ∧ c.toNat ≤ 57 then some (c.toNat - 48)
  else if 97 ≤ c.toNat ∧ c.toNat ≤ 102 then some (c.toNat - 87)
  else if 65 ≤ c.toNat ∧ c.toNat ≤ 70 then some (c.toNat - 55)
  else none

/-- Fuel-based little-endian base-`b` digit extraction (structurally
recursive, so that concrete renderings evaluate). -/
def digitsBase (b : Nat) : Nat → Nat → List Nat
  | 0, _ => []
  | fuel + 1, n => if n = 0 then [] else n % b :: digitsBase b fuel (n / b)

/-- Little-endian base-`b` digits of `n` (agrees with `Nat.digits` for
`2 ≤ b`). -/
def natDigits (b n : Nat) : List Nat := digitsBase b n n

/-- Decimal rendering of a natural number (most significant digit first),
as Rust's `Display` for integers produces. -/
def printNat (n : Nat) : List Char :=
  if n = 0 then ['0'] else ((natDigits 10 n).map decChar).reverse

/-- Parse a string of decimal digit characters into the digit-value list. -/
def parseDigits : List Char → Option (List Nat)
  | [] => some []
  | c :: cs =>
    match charDigit? c, parseDigits cs with
    | some d, some ds => some (d :: ds)
    | _, _ => none

/-- Parse a nonempty all-decimal string into a natural number, the
embedding of Rust's integer `parse`. -/
def parseNat? (cs : List Char) : Option Nat :=
  match parseDigits cs with
  | some ds => if cs = [] then none else some (Nat.ofDigits 10 ds.reverse)
  | none => none

/-- `parse::<u32>()`: a decimal number that must fit in 32 bits. -/
def parseU32? (cs : List Char) : Option Nat :=
  match parseNat? cs with
  | some n => if n < 2 ^ 32 then some n else none
  | none => none

/-- Left-pad with `'0'` to the given width. -/
def padZeros (w : Nat) (cs : List Char) : List Char :=
  List.replicate (w - cs.length) '0' ++ cs

/-- The 32-hex-digit rendering of a 128-bit digest (`{:?}` on
`MD5Sum`). -/
def printHash (h : Nat) : List Char :=
  padZeros 32 (((natDigits 16 h).map hexChar).reverse)

/-- Parse a string of hex digit characters into the digit-value list. -/
def parseHexDigits : List Char → Option (List Nat)
  | [] => some []
  | c :: cs =>
    match charHexDigit? c, parseHexDigits cs with
    | some d, some ds => some (d :: ds)
    | _, _ => none

/-- Parse a 32-hex-digit digest (`MD5Sum`'s `FromStr`). -/
def parseHash? (cs : List Char) : Option Nat :=
  match parseHexDigits cs with
  | some ds => if cs.length = 32 then some (Nat.ofDigits 16 ds.reverse) else none
  | none => none

/-- The `{:.6}` rendering of an mtime of `m` microseconds: seconds, a dot,
then exactly six fractional digits. -/
def printMtime (m : Nat) : List Char :=
  printNat (m / 1000000) ++ '.' :: padZeros 6 (printNat (m % 1000000))

/-- The mtime field as written by `CacheEntry`'s `Display`: empty when the
mtime is absent. -/
def printMtimeField : Option Nat → List Char
  | none => []
  | some m => printMtime m

/-- Split on a separator character; always returns at least one (possibly
empty) segment, like Rust's `str::split`. -/
def splitOnChar (sep : Char) : List Char → List (List Char)
  | [] => [[]]
  | c :: rest =>
    if c = sep then [] :: splitOnChar sep rest
    else
      match splitOnChar sep rest with
      | s :: ss => (c :: s) :: ss
      | [] => [[c]]

/-- Parse the mtime field back (`parse::<f64>().ok()`), for the shapes the
cache file format uses: decimal seconds, a dot, six fractional digits. -/
def parseMtime? (cs : List Char) : Option Nat :=
  match splitOnChar '.' cs with
  | [ip, fp] =>
    match parseDigits ip, parseDigits fp with
    | some ids, some fds =>
      if ip ≠ [] ∧ fp.length = 6 then
        some (Nat.ofDigits 10 ids.reverse * 1000000 + Nat.ofDigits 10 fds.reverse)
      else none
    | _, _ => none
  | _ => none

/-- Rust's `BufRead::lines`: segments between `'\n'`, with a final empty
segment (from a trailing newline) dropped. -/
def linesOf (s : List Char) : List (List Char) :=
  let ps := splitOnChar '\n' s
  if ps.getLast? = some [] then ps.dropLast else ps

/-- One line of the cache file: `key,[mtime],size,hash` (the
`Display` impls for `Cache` and `CacheEntry` in `src/cache.rs`). -/
def entryLine (k : List Char) (e : CacheEntry) : List Char :=
  k ++ ',' :: printMtimeField e.mtime ++ ',' :: printNat e.size ++ ',' :: printHash e.hash

/-- `Cache::save`'s output: every entry as a line followed by `'\n'`, in
entry (key) order. -/
def Cache.saveString (c : Cache) : List Char :=
  (c.entries.map (fun p => entryLine p.1 p.2 ++ ['\n'])).flatten

/-- The body of `Cache::load`'s per-line loop: split on `,`, take the key
verbatim, parse mtime leniently (`.ok()`), parse size and hash fatally
(`unwrap`), ignore any extra fields; `none` is the embedded `panic!`. -/
def parseLine (line : List Char) : Option (List Char × CacheEntry) :=
  match splitOnChar ',' line with
  | key :: ms :: ss :: hs :: _ =>
    match parseU32? ss, parseHash? hs with
    | some size, some hash => some (key, ⟨parseMtime? ms, size, hash⟩)
    | _, _ => none
  | _ => none

/-- The backing store `Cache::load` opens: absent, failing to open with a
non-NotFound error, or present with contents. -/
inductive Store where
  | notFound : Store
  | openFailure : Store
  | content : List Char → Store
  deriving DecidableEq

/-- How `Cache::load` fails: a propagated I/O error, or a line that does
not parse. -/
inductive LoadError where
  | ioError : LoadError
  | badLine : LoadError
  deriving DecidableEq, Repr

/-- The line loop of `Cache::load`: parse each line and `insert` it (the
key is used verbatim, via the raw `CacheKey` constructor). -/
def loadLines (c : Cache) : List (List Char) → Except LoadError Cache
  | [] => .ok c
  | ln :: rest =>
    match parseLine ln with
    | some ke => loadLines (c.insert ⟨ke.1⟩ ke.2) rest
    | none => .error .badLine

/-- `Cache::load` from `src/cache.rs`: a missing store is not an error and
leaves the cache as is; any other open failure propagates; otherwise every
line is parsed and inserted. -/
def Cache.load (c : Cache) : Store → Except LoadError Cache
  | .notFound => .ok c
  | .openFailure => .error .ioError
  | .content s => loadLines c (linesOf s)

/-! ## Sync decision engine — from `src/patcher.rs`

`Patcher::ensure` and `Patcher::ensure_file` are async functions doing
network and filesystem I/O; we embed them as pure functions over an
explicit `World` oracle (the outcome of the download pipeline and the
subsequent metadata read), returning the observable effects: a trace of
fetches and cache operations, the updated cache, the returned boolean, and
the per-file resolution state, or an error when the fetch pipeline
fails. -/

/-- A manifest entry (`assembly_pack::txt::FileLine`, spec §3
`ManifestEntry`): content hash, file size, and the URL path suffix
`FileLine::to_path` yields. -/
structure FileLine where
  hash : Nat
  filesize : Nat
  suffix : List Char
  deriving DecidableEq, Repr

/-- A manifest (`assembly_pack::txt::Manifest`, spec §3): an ordered
mapping from path to entry, embedded as an association list. -/
structure Manifest where
  files : List (List Char × FileLine)
  deriving DecidableEq, Repr

/-- A value of the archive index's `files` map
(`assembly_pack::pki::core::FileRef`): category and pack file index. -/
structure FileRef where
  category : Nat
  pack_file : Nat
  deriving DecidableEq, Repr

/-- The archive index (`assembly_pack::pki::core::PackIndexFile`, spec §3
`ArchiveIndex`): a mapping from path checksum to archive membership. -/
structure PackIndexFile where
  files : List (Nat × FileRef)
  deriving DecidableEq, Repr

/-- The two cache-key base strings built in `PatcherBuilder::build`
(`src/patcher.rs` lines 55–58). -/
structure PatcherKeys where
  download : List Char
  install : List Char
  deriving DecidableEq, Repr

/-- `PatcherBuilder::build`: the download area key base is
`format!("{}/", downloaddirectory)`, the install area key base is
`String::new()`. -/
def PatcherKeys.build (downloaddirectory : List Char) : PatcherKeys :=
  ⟨downloaddirectory ++ ['/'], []⟩

/-- One observable effect of a per-file operation. -/
inductive Op where
  | fetch : List Char → Op
  | cacheGet : List Char → Op
  | cacheInsert : List Char → Op
  deriving DecidableEq, Repr

/-- Whether an effect is a network fetch. -/
def Op.isFetch : Op → Bool
  | .fetch _ => true
  | _ => false

/-- Whether an effect touches the cache (lookup or mutation). -/
def Op.isCacheOp : Op → Bool
  | .fetch _ => false
  | .cacheGet _ => true
  | .cacheInsert _ => true

/-- Number of fetches in a trace. -/
def countFetches (ops : List Op) : Nat :=
  (ops.filter Op.isFetch).length

/-- The spec §4.3 per-file states reached by the engine (`FETCH_FAILED`
is the `Except.error` outcome). -/
inductive SyncState where
  | archived : SyncState
  | cacheHit : SyncState
  | fetched : SyncState
  | notInManifest : SyncState
  deriving DecidableEq, Repr

/-- The outcome of the download/decompress pipeline plus the following
`fs::metadata` mtime read for one file: `some m` on success, with `m` the
freshly read on-disk mtime in microseconds; `none` when the pipeline
fails. -/
structure World where
  fetchMtime : Option Nat
  deriving DecidableEq, Repr

/-- The successful result of a per-file operation: effect trace, updated
cache, returned boolean, and resolution state. -/
structure EnsureOk where
  ops : List Op
  cache : Cache
  ret : Bool
  state : SyncState
  deriving DecidableEq, Repr

/-- `Patcher::get_url`: join the patcher base URL with
`FileLine::to_path`. -/
def get_url (baseUrl : List Char) (f : FileLine) : List Char :=
  baseUrl ++ f.suffix

/-- The `needs_download` computation in `Patcher::ensure` (`src/patcher.rs`
lines 177–182): download unless the cache holds the key with the
manifest's hash. -/
def needsDownload (cache : Cache) (key : CacheKey) (f : FileLine) : Bool :=
  match cache.get key with
  | some c => !(c.hash = f.hash)
  | none => true

/-- `Patcher::ensure` (`src/patcher.rs` lines 159–208): look the file up in
the manifest (absent → `Ok(false)`, nothing else happens); otherwise build
the cache key from `base_key + file`, check the cache, and on a missing or
stale entry run the download pipeline and insert a fresh entry carrying the
manifest's size and hash and the freshly read mtime. -/
def ensure (w : World) (cache : Cache) (manifest : Manifest)
    (baseUrl baseKey file : List Char) : Except Unit EnsureOk :=
  match assocGet file manifest.files with
  | none => .ok ⟨[], cache, false, .notInManifest⟩
  | some f =>
    let url := get_url baseUrl f
    let key := CacheKey.new (baseKey ++ file)
    if needsDownload cache key f then
      match w.fetchMtime with
      | none => .error ()
      | some m =>
        .ok ⟨[.cacheGet key.s, .fetch url, .cacheInsert key.s],
          cache.insert key ⟨some m, f.filesize, f.hash⟩, true, .fetched⟩
    else .ok ⟨[.cacheGet key.s], cache, true, .cacheHit⟩

/-- `Patcher::ensure_file` (`src/patcher.rs` lines 132–157): if the path
checksum of the file is in the archive index, return `Ok(false)` without
touching anything; otherwise resolve against the install area via
`ensure`. -/
def ensure_file (w : World) (cache : Cache) (pki : PackIndexFile)
    (manifest : Manifest) (baseUrl : List Char) (keys : PatcherKeys)
    (file : List Char) : Except Unit EnsureOk :=
  match assocGet (calculate_crc (file.map Char.toNat)) pki.files with
  | some _ => .ok ⟨[], cache, false, .archived⟩
  | none => ensure w cache manifest baseUrl keys.install file

/-- Running `Patcher::ensure` over a list of files of one file-set,
threading the shared cache, concatenating the effect traces (the returned
booleans are used only for bookkeeping and never short-circuit). -/
def ensureAll (w : List Char → World) (cache : Cache) (manifest : Manifest)
    (baseUrl baseKey : List Char) :
    List (List Char) → Except Unit (List Op × Cache)
  | [] => .ok ([], cache)
  | file :: rest =>
    match ensure (w file) cache manifest baseUrl baseKey file with
    | .error e => .error e
    | .ok r =>
      match ensureAll w r.cache manifest baseUrl baseKey rest with
      | .error e => .error e
      | .ok (ops, c') => .ok (r.ops ++ ops, c')

/-- A finite sequence of `Cache::insert` calls, applied in order (each key
given as the raw string wrapped by `CacheKey`). -/
def Cache.insertSeq (c : Cache) (l : List (List Char × CacheEntry)) : Cache :=
  l.foldl (fun c p => c.insert ⟨p.1⟩ p.2) c

/-- The last value inserted for a key by a sequence of insert calls. -/
def lastInserted : List (List Char × CacheEntry) → List Char → Option CacheEntry
  | [], _ => none
  | p :: rest, k =>
    match lastInserted rest k with
    | some v => some v
    | none => if p.1 = k then some p.2 else none

/-- The big-endian decimal digit values of `n`, as `printNat` renders
them. -/
def digitsBE (n : Nat) : List Nat :=
  if n = 0 then [0] else (natDigits 10 n).reverse

/-- Well-formedness of one insert call, as every entry actually produced by
the patcher satisfies: the key has no comma and no newline, the size fits
`u32`, and the hash is a 128-bit digest. -/
def EntryWF (p : List Char × CacheEntry) : Prop :=
  (',' ∉ p.1 ∧ '\n' ∉ p.1) ∧ p.2.size < 2 ^ 32 ∧ p.2.hash < 2 ^ 128

/-! ## Concrete fixtures used by witnesses and counterexamples -/

/-- The file name `"a"`. -/
def fileA : List Char := ['a']

/-- An archive index whose `files` map contains the path checksum of
`fileA`. -/
def pkiA : PackIndexFile :=
  ⟨[(calculate_crc (fileA.map Char.toNat), ⟨0, 0⟩)]⟩

/-- The empty archive index. -/
def pkiEmpty : PackIndexFile := ⟨[]⟩

/-- The manifest entry used by concrete runs: hash 7, size 10,
URL path suffix `"u"`. -/
def flA : FileLine := ⟨7, 10, ['u']⟩

/-- A manifest containing only `fileA`. -/
def manifestA : Manifest := ⟨[(fileA, flA)]⟩

/-- The empty manifest. -/
def manifestEmpty : Manifest := ⟨[]⟩

/-- A world whose download pipeline succeeds with mtime 5 (microseconds). -/
def worldOk : World := ⟨some 5⟩

/-- The patcher key bases for `downloaddirectory = "v"`. -/
def keysV : PatcherKeys := PatcherKeys.build ['v']

/-- A cache already holding the matching entry for `fileA` under the
`"v/"`-area key: hash 7 and size 10, as `manifestA` declares. -/
def cacheHitA : Cache :=
  Cache.new.insert (CacheKey.new (['v', '/'] ++ fileA)) ⟨some 1, 10, 7⟩

/-- A one-element insert sequence with a well-formed key. -/
def seqA : List (List Char × CacheEntry) := [(['a'], ⟨some 1, 10, 7⟩)]

/-- A one-element insert sequence whose key contains a comma. -/
def seqBad : List (List Char × CacheEntry) := [(['a', ',', 'b'], ⟨none, 0, 0⟩)]

/-- `c` is an ASCII uppercase letter. -/
def isUpperAscii (c : Char) : Prop := 65 ≤ c.toNat ∧ c.toNat ≤ 90

instance (c : Char) : Decidable (isUpperAscii c) := by
  unfold isUpperAscii
  infer_instance

/-- Two characters are equal up to ASCII letter case. -/
def CaseEq (c d : Char) : Prop :=
  c = d ∨ (isUpperAscii c ∧ d.toNat = c.toNat + 32) ∨
    (isUpperAscii d ∧ c.toNat = d.toNat + 32)

instance (c d : Char) : Decidable (CaseEq c d) := by
  unfold CaseEq
  infer_instance

/-! ## Theorems -/

theorem specNormalizeByte_eq_clean_byte (b : Nat) :
    specNormalizeByte b = clean_byte b := by
  unfold specNormalizeByte clean_byte clean_lower
  split_ifs <;> omega

theorem clean_byte_idem (b : Nat) : clean_byte (clean_byte b) = clean_byte b := by
  unfold clean_byte clean_lower
  split_ifs <;> omega

/-- **C5**: for every byte sequence `p`, the code's `calculate_crc` computes
exactly the reference CRC: register initialized to `0xFFFFFFFF`, each
normalized byte of `p` and then four zero bytes mixed in MSB-first with
polynomial `0x04C11DB7`, and no final complement. -/
theorem calculate_crc_eq_specReferenceCrc (p : List Nat) :
    calculate_crc p = specReferenceCrc p := by
  unfold calculate_crc specReferenceCrc
  rw [List.foldl_append, List.foldl_map]
  have h : (fun crc b => update_crc crc (specNormalizeByte b))
      = (fun crc b => update_crc crc (clean_byte b)) := by
    funext crc b
    rw [specNormalizeByte_eq_clean_byte]
  rw [h, CRC_FXOR, Nat.xor_zero]

/-- **C6**: the checksum is invariant under the spec's path normalization —
replacing every `/` byte by `\` and lowercasing every ASCII uppercase letter
does not change the checksum. -/
theorem calculate_crc_normalize_invariant (p : List Nat) :
    calculate_crc (p.map specNormalizeByte) = calculate_crc p := by
  unfold calculate_crc
  rw [List.foldl_map]
  have h : (fun crc b => update_crc crc (clean_byte (specNormalizeByte b)))
      = (fun crc b => update_crc crc (clean_byte b)) := by
    funext crc b
    rw [specNormalizeByte_eq_clean_byte, clean_byte_idem]
  rw [h]

theorem loadLines_error_of_bad_line (ls : List (List Char)) (c : Cache)
    (h : ∃ ln ∈ ls, parseLine ln = none) :
    loadLines c ls = .error .badLine := by
  induction ls generalizing c with
  | nil => obtain ⟨ln, hmem, _⟩ := h; exact absurd hmem (List.not_mem_nil ln)
  | cons hd tl ih =>
    obtain ⟨ln, hmem, hbad⟩ := h
    unfold loadLines
    cases hp : parseLine hd with
    | none => rfl
    | some ke =>
      rcases List.mem_cons.mp hmem with rfl | hmem'
      · rw [hp] at hbad; exact absurd hbad (by simp)
      · exact ih _ ⟨ln, hmem', hbad⟩

/-- **C8**: `Cache::load` succeeds on a missing backing store and leaves
the cache as it was (empty when fresh); any other failure to open the store
propagates as an error; and a line that does not parse into key, mtime,
size and hash makes the whole load fail rather than being guessed at. -/
theorem cache_load_error_contract :
    (∀ c : Cache, Cache.load c .notFound = .ok c) ∧
    (Cache.load Cache.new .notFound = .ok Cache.new) ∧
    (∀ c : Cache, Cache.load c .openFailure = .error .ioError) ∧
    (∀ (c : Cache) (s : List Char),
      (∃ ln ∈ linesOf s, parseLine ln = none) →
        Cache.load c (.content s) = .error .badLine) := by
  refine ⟨fun _ => rfl, rfl, fun _ => rfl, fun c s h => ?_⟩
  exact loadLines_error_of_bad_line _ c h

/-- Witness for C8: loading the one-line store `"x"` (no commas, so the
line does not parse) fails with a parse error. -/
theorem cache_load_error_contract_witness :
    Cache.load Cache.new (.content ['x']) = .error .badLine :=
  cache_load_error_contract.2.2.2 Cache.new ['x'] ⟨['x'], by decide, by decide⟩

/-- **C9**: the download-staging area and the install area use distinct
cache-key base strings (`downloaddirectory + "/"` versus `""`), and for
every relative file path the two areas' cache keys differ — the same
relative path can never collide across areas. -/
theorem cache_key_area_separation (downloaddirectory file : List Char) :
    (PatcherKeys.build downloaddirectory).download ≠
      (PatcherKeys.build downloaddirectory).install ∧
    CacheKey.new ((PatcherKeys.build downloaddirectory).download ++ file) ≠
      CacheKey.new ((PatcherKeys.build downloaddirectory).install ++ file) := by
  constructor
  · intro h
    have := congrArg List.length h
    simp [PatcherKeys.build] at this
  · intro h
    have := congrArg (fun k => k.s.length) h
    simp [PatcherKeys.build, CacheKey.new] at this
    omega

/-- **C3**: when the path checksum of a file is present in the archive
index, `ensure_file` performs no fetch and no cache operation at all (its
trace is empty) and returns the cache unchanged, regardless of the
manifest, the cache and the world. -/
theorem ensure_file_archived_frame (w : World) (cache : Cache)
    (pki : PackIndexFile) (manifest : Manifest) (baseUrl : List Char)
    (keys : PatcherKeys) (file : List Char) (r : FileRef)
    (h : assocGet (calculate_crc (file.map Char.toNat)) pki.files = some r) :
    ensure_file w cache pki manifest baseUrl keys file =
      .ok ⟨[], cache, false, .archived⟩ := by
  unfold ensure_file
  rw [h]

set_option maxRecDepth 4000 in
/-- Witness for C3: a concrete archived file is resolved with an empty
trace and an unchanged cache. -/
theorem ensure_file_archived_frame_witness :
    ensure_file worldOk Cache.new pkiA manifestA [] keysV fileA =
      .ok ⟨[], Cache.new, false, .archived⟩ :=
  ensure_file_archived_frame worldOk Cache.new pkiA manifestA [] keysV fileA
    ⟨0, 0⟩ (by decide)

/-- **C1**: for a file present in the manifest whose cache entry is absent
or stale (stored hash differs from the manifest's), `ensure` performs
exactly one fetch and then inserts a cache entry under the file's cache key
whose size and hash are taken verbatim from the manifest entry and whose
mtime is the freshly read on-disk mtime. -/
theorem ensure_stale_fetches_once (w : World) (cache : Cache)
    (manifest : Manifest) (baseUrl baseKey file : List Char) (f : FileLine)
    (m : Nat)
    (hf : assocGet file manifest.files = some f)
    (hstale : cache.get (CacheKey.new (baseKey ++ file)) = none ∨
      ∃ c, cache.get (CacheKey.new (baseKey ++ file)) = some c ∧
        c.hash ≠ f.hash)
    (hw : w.fetchMtime = some m) :
    ensure w cache manifest baseUrl baseKey file =
      .ok ⟨[.cacheGet (CacheKey.new (baseKey ++ file)).s,
            .fetch (get_url baseUrl f),
            .cacheInsert (CacheKey.new (baseKey ++ file)).s],
        cache.insert (CacheKey.new (baseKey ++ file))
          ⟨some m, f.filesize, f.hash⟩,
        true, .fetched⟩ ∧
    countFetches [Op.cacheGet (CacheKey.new (baseKey ++ file)).s,
      Op.fetch (get_url baseUrl f),
      Op.cacheInsert (CacheKey.new (baseKey ++ file)).s] = 1 := by
  have hneed : needsDownload cache (CacheKey.new (baseKey ++ file)) f = true := by
    unfold needsDownload
    rcases hstale with hnone | ⟨c, hc, hne⟩
    · rw [hnone]
    · rw [hc]
      simpa using hne
  constructor
  · unfold ensure
    rw [hf]
    simp only [hneed, if_true, hw]
  · rfl

/-- Witness for C1: a concrete stale run (empty cache) fetches once and
records the manifest's hash and size with the fresh mtime. -/
theorem ensure_stale_fetches_once_witness :
    ensure worldOk Cache.new manifestA [] ['v', '/'] fileA =
      .ok ⟨[.cacheGet (CacheKey.new (['v', '/'] ++ fileA)).s,
            .fetch (get_url [] flA),
            .cacheInsert (CacheKey.new (['v', '/'] ++ fileA)).s],
        Cache.new.insert (CacheKey.new (['v', '/'] ++ fileA))
          ⟨some 5, flA.filesize, flA.hash⟩,
        true, .fetched⟩ ∧
    countFetches [Op.cacheGet (CacheKey.new (['v', '/'] ++ fileA)).s,
      Op.fetch (get_url [] flA),
      Op.cacheInsert (CacheKey.new (['v', '/'] ++ fileA)).s] = 1 :=
  ensure_stale_fetches_once worldOk Cache.new manifestA [] ['v', '/'] fileA
    flA 5 (by decide) (Or.inl (by decide)) (by decide)

set_option maxRecDepth 4000 in
/-- **C2, counterexample**: the claim's return-value contract — true
exactly for `ARCHIVED`, `CACHE_HIT` or `FETCHED` — is false on the code: a
concrete file shadowed by the archive index ends in state `ARCHIVED` yet
`ensure_file` returns `false`. -/
theorem ensure_file_return_value_counterexample :
    ¬ ∀ r : EnsureOk,
        ensure_file worldOk Cache.new pkiA manifestA [] keysV fileA = .ok r →
          (r.ret = true ↔
            (r.state = .archived ∨ r.state = .cacheHit ∨
              r.state = .fetched)) := by
  intro h
  have := h ⟨[], Cache.new, false, .archived⟩ (by rfl)
  simp at this

/-- **C2, amended**: whenever the per-file operation succeeds, it returns
`true` exactly when the file ends in state `CACHE_HIT` or `FETCHED`, and
`false` exactly when the file is absent from the active manifest
(`NOT_IN_MANIFEST`) or is shadowed by an archive entry (`ARCHIVED`). -/
theorem ensure_file_return_value (w : World) (cache : Cache)
    (pki : PackIndexFile) (manifest : Manifest) (baseUrl : List Char)
    (keys : PatcherKeys) (file : List Char) (r : EnsureOk)
    (h : ensure_file w cache pki manifest baseUrl keys file = .ok r) :
    (r.ret = true ↔ (r.state = .cacheHit ∨ r.state = .fetched)) ∧
    (r.ret = false ↔ (r.state = .notInManifest ∨ r.state = .archived)) := by
  unfold ensure_file ensure at h
  split at h
  · cases h
    exact ⟨by simp, by simp⟩
  · split at h
    · cases h
      exact ⟨by simp, by simp⟩
    · dsimp only at h
      split at h
      · split at h
        · exact absurd h (by simp)
        · cases h
          exact ⟨by simp, by simp⟩
      · cases h
        exact ⟨by simp, by simp⟩

set_option maxRecDepth 4000 in
/-- Witness for the amended C2: the concrete archived run returns `false`
and its state is `ARCHIVED`. -/
theorem ensure_file_return_value_witness :
    ((⟨[], Cache.new, false, .archived⟩ : EnsureOk).ret = true ↔
      ((⟨[], Cache.new, false, .archived⟩ : EnsureOk).state = .cacheHit ∨
        (⟨[], Cache.new, false, .archived⟩ : EnsureOk).state = .fetched)) ∧
    ((⟨[], Cache.new, false, .archived⟩ : EnsureOk).ret = false ↔
      ((⟨[], Cache.new, false, .archived⟩ : EnsureOk).state = .notInManifest ∨
        (⟨[], Cache.new, false, .archived⟩ : EnsureOk).state = .archived)) :=
  ensure_file_return_value worldOk Cache.new pkiA manifestA [] keysV fileA
    ⟨[], Cache.new, false, .archived⟩ (by rfl)

theorem assocGet_mem {κ α : Type} [DecidableEq κ] {k : κ} {v : α} :
    ∀ {l : List (κ × α)}, assocGet k l = some v → (k, v) ∈ l := by
  intro l
  induction l with
  | nil => intro h; exact absurd h (by simp [assocGet])
  | cons p rest ih =>
    intro h
    unfold assocGet at h
    split at h
    · rename_i heq
      cases h
      subst heq
      exact List.mem_cons_self _ _
    · exact List.mem_cons_of_mem _ (ih h)

theorem ensure_cache_hit_no_fetch (w : World) (cache : Cache)
    (manifest : Manifest) (baseUrl baseKey file : List Char)
    (h : ∀ p ∈ manifest.files,
      ∃ c, cache.get (CacheKey.new (baseKey ++ p.1)) = some c ∧
        c.hash = p.2.hash) :
    ∃ tr ret st, ensure w cache manifest baseUrl baseKey file =
      .ok ⟨tr, cache, ret, st⟩ ∧ countFetches tr = 0 := by
  unfold ensure
  cases hf : assocGet file manifest.files with
  | none => exact ⟨[], false, .notInManifest, rfl, rfl⟩
  | some f =>
    obtain ⟨c, hc, hh⟩ := h (file, f) (assocGet_mem hf)
    have hnd : needsDownload cache (CacheKey.new (baseKey ++ file)) f
        = false := by
      unfold needsDownload
      rw [hc]
      simp [hh]
    refine ⟨[.cacheGet (CacheKey.new (baseKey ++ file)).s], true, .cacheHit,
      ?_, rfl⟩
    dsimp only
    rw [hnd]
    simp

/-- **C4**: over any list of files, if the cache already holds a
hash-matching entry for every file of the manifest, the engine performs
zero fetches, returns the cache unchanged, and a subsequent `save`
produces a byte-identical cache file. -/
theorem sync_engine_idempotent (w : List Char → World) (cache : Cache)
    (manifest : Manifest) (baseUrl baseKey : List Char)
    (files : List (List Char))
    (h : ∀ p ∈ manifest.files,
      ∃ c, cache.get (CacheKey.new (baseKey ++ p.1)) = some c ∧
        c.hash = p.2.hash) :
    ∃ tr c', ensureAll w cache manifest baseUrl baseKey files = .ok (tr, c') ∧
      countFetches tr = 0 ∧ c' = cache ∧
      c'.saveString = cache.saveString := by
  induction files with
  | nil => exact ⟨[], cache, rfl, rfl, rfl, rfl⟩
  | cons file rest ih =>
    obtain ⟨tr, ret, st, he, h0⟩ :=
      ensure_cache_hit_no_fetch (w file) cache manifest baseUrl baseKey file h
    obtain ⟨tr', c', hrest, h0', hc', _⟩ := ih
    refine ⟨tr ++ tr', c', ?_, ?_, hc', by rw [hc']⟩
    · unfold ensureAll
      rw [he]
      dsimp only
      rw [hrest]
    · unfold countFetches at h0 h0' ⊢
      rw [List.filter_append, List.length_append, h0, h0']

/-- Witness for C4: re-running the engine on `manifestA` with the matching
cache `cacheHitA` fetches nothing and leaves the cache byte-identical. -/
theorem sync_engine_idempotent_witness :
    ∃ tr c', ensureAll (fun _ => worldOk) cacheHitA manifestA [] ['v', '/']
        [fileA] = .ok (tr, c') ∧
      countFetches tr = 0 ∧ c' = cacheHitA ∧
      c'.saveString = cacheHitA.saveString :=
  sync_engine_idempotent (fun _ => worldOk) cacheHitA manifestA [] ['v', '/']
    [fileA]
    (by
      intro p hp
      have hp' : p = (fileA, flA) := by
        simpa [manifestA] using hp
      subst hp'
      exact ⟨⟨some 1, 10, 7⟩, by decide, by decide⟩)

theorem assocGet_insertList_self (k : List Char) (v : CacheEntry)
    (es : List (List Char × CacheEntry)) :
    assocGet k (insertList k v es) = some v := by
  induction es with
  | nil => simp [insertList, assocGet]
  | cons p rest ih =>
    obtain ⟨k', v'⟩ := p
    unfold insertList
    split_ifs with h1 h2
    · simp [assocGet]
    · simp [assocGet]
    · unfold assocGet
      rw [if_neg (by simpa using h2)]
      exact ih

theorem assocGet_insertList_ne (k : List Char) (v : CacheEntry)
    (es : List (List Char × CacheEntry)) (k₂ : List Char) (h : k₂ ≠ k) :
    assocGet k₂ (insertList k v es) = assocGet k₂ es := by
  induction es with
  | nil => simp [insertList, assocGet, h]
  | cons p rest ih =>
    obtain ⟨k', v'⟩ := p
    unfold insertList
    split_ifs with h1 h2
    · unfold assocGet
      rw [if_neg (by simpa using h)]
      rfl
    · subst h2
      unfold assocGet
      rw [if_neg (by simpa using h), if_neg (by simpa using h)]
    · unfold assocGet
      split
      · rfl
      · exact ih

theorem not_slash_of_upper {c : Char} (h : isUpperAscii c) : c ≠ '/' := by
  intro hc
  subst hc
  exact absurd h (by decide)

theorem not_slash_of_shifted {c d : Char} (hu : isUpperAscii d)
    (h : c.toNat = d.toNat + 32) : c ≠ '/' := by
  intro hc
  subst hc
  obtain ⟨h1, h2⟩ := hu
  have : ('/').toNat = 47 := by decide
  omega

theorem slashFix_inj_of_caseEq {c d : Char} (h : CaseEq c d)
    (heq : (if c = '/' then '\\' else c) = (if d = '/' then '\\' else d)) :
    c = d := by
  rcases h with rfl | ⟨hu, hd⟩ | ⟨hu, hd⟩
  · rfl
  · rw [if_neg (not_slash_of_upper hu), if_neg (not_slash_of_shifted hu hd)]
      at heq
    exact heq
  · rw [if_neg (not_slash_of_shifted hu hd), if_neg (not_slash_of_upper hu)]
      at heq
    exact heq

theorem caseEq_map_slashFix_inj {p q : List Char}
    (h : List.Forall₂ CaseEq p q)
    (heq : p.map (fun c => if c = '/' then '\\' else c)
      = q.map (fun c => if c = '/' then '\\' else c)) : p = q := by
  induction h with
  | nil => rfl
  | cons hcd _ ih =>
    simp only [List.map_cons, List.cons.injEq] at heq
    rw [slashFix_inj_of_caseEq hcd heq.1, ih heq.2]

theorem clean_byte_caseEq {c d : Char} (h : CaseEq c d) :
    clean_byte c.toNat = clean_byte d.toNat := by
  rcases h with rfl | ⟨⟨h1, h2⟩, hd⟩ | ⟨⟨h1, h2⟩, hd⟩ <;>
    unfold clean_byte clean_lower <;> split_ifs <;> omega

theorem caseEq_crc_foldl {p q : List Char} (h : List.Forall₂ CaseEq p q) :
    ∀ acc : Nat,
      (p.map Char.toNat).foldl (fun crc b => update_crc crc (clean_byte b)) acc
        = (q.map Char.toNat).foldl (fun crc b => update_crc crc (clean_byte b))
            acc := by
  induction h with
  | nil => intro acc; rfl
  | cons hcd _ ih =>
    intro acc
    simp only [List.map_cons, List.foldl_cons]
    rw [clean_byte_caseEq hcd]
    exact ih _

/-- **C10**: `CacheKey::new` only rewrites slashes and preserves ASCII
letter case, so two paths that are case variants of each other (but not
equal) yield distinct cache keys — inserting under one never touches the
entry of the other — even though `calculate_crc` maps both paths to the
same archive-index checksum. -/
theorem cache_key_case_sensitive (p q : List Char)
    (hcase : List.Forall₂ CaseEq p q) (hne : p ≠ q) :
    CacheKey.new p ≠ CacheKey.new q ∧
    calculate_crc (p.map Char.toNat) = calculate_crc (q.map Char.toNat) ∧
    ∀ (cache : Cache) (e : CacheEntry),
      (cache.insert (CacheKey.new p) e).get (CacheKey.new q) =
        cache.get (CacheKey.new q) := by
  have hkeys : CacheKey.new p ≠ CacheKey.new q := by
    intro h
    apply hne
    exact caseEq_map_slashFix_inj hcase (congrArg CacheKey.s h)
  refine ⟨hkeys, ?_, ?_⟩
  · unfold calculate_crc
    rw [caseEq_crc_foldl hcase]
  · intro cache e
    unfold Cache.insert Cache.get
    exact assocGet_insertList_ne _ _ _ _
      (fun hs => hkeys (congrArg CacheKey.mk hs).symm)

/-- Witness for C10: `"A"` and `"a"` are case variants; their cache keys
differ (inserting under one leaves the other's entry alone) while their
path checksums agree. -/
theorem cache_key_case_sensitive_witness :
    CacheKey.new ['A'] ≠ CacheKey.new ['a'] ∧
    calculate_crc (['A'].map Char.toNat) = calculate_crc (['a'].map Char.toNat) ∧
    (cacheHitA.insert (CacheKey.new ['A']) ⟨some 2, 3, 4⟩).get
        (CacheKey.new ['a']) = cacheHitA.get (CacheKey.new ['a']) := by
  have h := cache_key_case_sensitive ['A'] ['a']
    (List.Forall₂.cons (Or.inr (Or.inl ⟨by decide, by decide⟩))
      List.Forall₂.nil) (by decide)
  exact ⟨h.1, h.2.1, h.2.2 cacheHitA ⟨some 2, 3, 4⟩⟩

theorem keyLt_irrefl (k : List Char) : keyLt k k = false := by
  induction k with
  | nil => rfl
  | cons a as ih =>
    unfold keyLt
    rw [if_neg (lt_irrefl a), if_neg (lt_irrefl a)]
    exact ih

theorem keyLt_asymm : ∀ {a b : List Char}, keyLt a b = true → keyLt b a = false := by
  intro a
  induction a with
  | nil =>
    intro b h
    cases b with
    | nil => exact absurd h (by simp [keyLt])
    | cons y ys => rfl
  | cons x xs ih =>
    intro b h
    cases b with
    | nil => exact absurd h (by simp [keyLt])
    | cons y ys =>
      unfold keyLt at h ⊢
      by_cases hxy : x < y
      · rw [if_neg (lt_asymm hxy), if_pos hxy]
      · by_cases hyx : y < x
        · rw [if_neg hxy, if_pos hyx] at h
          exact absurd h (by simp)
        · rw [if_neg hxy, if_neg hyx] at h
          rw [if_neg hyx, if_neg hxy]
          exact ih h

theorem keyLt_trans : ∀ {a b c : List Char},
    keyLt a b = true → keyLt b c = true → keyLt a c = true := by
  intro a
  induction a with
  | nil =>
    intro b c h1 h2
    cases b with
    | nil => exact absurd h1 (by simp [keyLt])
    | cons y ys =>
      cases c with
      | nil => exact absurd h2 (by simp [keyLt])
      | cons z zs => rfl
  | cons x xs ih =>
    intro b c h1 h2
    cases b with
    | nil => exact absurd h1 (by simp [keyLt])
    | cons y ys =>
      cases c with
      | nil => exact absurd h2 (by simp [keyLt])
      | cons z zs =>
        unfold keyLt at h1 h2 ⊢
        by_cases hxy : x < y
        · by_cases hyz : y < z
          · rw [if_pos (lt_trans hxy hyz)]
          · by_cases hzy : z < y
            · rw [if_neg hyz, if_pos hzy] at h2
              exact absurd h2 (by simp)
            · have hyzeq : y = z := le_antisymm (not_lt.mp hzy) (not_lt.mp hyz)
              subst hyzeq
              rw [if_pos hxy]
        · by_cases hyx : y < x
          · rw [if_neg hxy, if_pos hyx] at h1
            exact absurd h1 (by simp)
          · have hxyeq : x = y := le_antisymm (not_lt.mp hyx) (not_lt.mp hxy)
            subst hxyeq
            rw [if_neg hxy, if_neg hyx] at h1
            by_cases hxz : x < z
            · rw [if_pos hxz]
            · by_cases hzx : z < x
              · rw [if_neg hxz, if_pos hzx] at h2
                exact absurd h2 (by simp)
              · have hxzeq : x = z := le_antisymm (not_lt.mp hzx) (not_lt.mp hxz)
                subst hxzeq
                rw [if_neg hxz, if_neg hzx] at h2 ⊢
                exact ih h1 h2

theorem keyLt_of_not_lt_of_ne : ∀ {a b : List Char},
    keyLt a b = false → a ≠ b → keyLt b a = true := by
  intro a
  induction a with
  | nil =>
    intro b h hne
    cases b with
    | nil => exact absurd rfl hne
    | cons y ys => exact absurd h (by simp [keyLt])
  | cons x xs ih =>
    intro b h hne
    cases b with
    | nil => rfl
    | cons y ys =>
      unfold keyLt at h ⊢
      by_cases hxy : x < y
      · rw [if_pos hxy] at h
        exact absurd h (by simp)
      · by_cases hyx : y < x
        · rw [if_pos hyx]
        · have hxyeq : x = y := le_antisymm (not_lt.mp hyx) (not_lt.mp hxy)
          subst hxyeq
          rw [if_neg hxy, if_neg hxy] at h
          rw [if_neg hxy, if_neg hxy]
          exact ih h (fun he => hne (by rw [he]))

theorem mem_insertList {x : List Char × CacheEntry} {k : List Char}
    {v : CacheEntry} :
    ∀ {es : List (List Char × CacheEntry)},
      x ∈ insertList k v es → x = (k, v) ∨ x ∈ es := by
  intro es
  induction es with
  | nil => intro h; simpa [insertList] using h
  | cons p rest ih =>
    obtain ⟨k', v'⟩ := p
    unfold insertList
    split_ifs with h1 h2
    · intro h
      rcases List.mem_cons.mp h with rfl | h'
      · exact Or.inl rfl
      · exact Or.inr h'
    · intro h
      rcases List.mem_cons.mp h with rfl | h'
      · exact Or.inl rfl
      · exact Or.inr (List.mem_cons_of_mem _ h')
    · intro h
      rcases List.mem_cons.mp h with rfl | h'
      · exact Or.inr (List.mem_cons_self _ _)
      · rcases ih h' with rfl | h''
        · exact Or.inl rfl
        · exact Or.inr (List.mem_cons_of_mem _ h'')

theorem insertList_sorted {k : List Char} {v : CacheEntry}
    {es : List (List Char × CacheEntry)}
    (h : es.Pairwise (fun a b => keyLt a.1 b.1 = true)) :
    (insertList k v es).Pairwise (fun a b => keyLt a.1 b.1 = true) := by
  induction es with
  | nil => simp [insertList]
  | cons p rest ih =>
    obtain ⟨k', v'⟩ := p
    rw [List.pairwise_cons] at h
    obtain ⟨h1, h2⟩ := h
    unfold insertList
    split_ifs with hlt heq
    · refine List.Pairwise.cons ?_ (List.Pairwise.cons h1 h2)
      intro x hx
      rcases List.mem_cons.mp hx with rfl | hx'
      · exact hlt
      · exact keyLt_trans hlt (h1 x hx')
    · subst heq
      exact List.Pairwise.cons h1 h2
    · refine List.Pairwise.cons ?_ (ih h2)
      intro x hx
      rcases mem_insertList hx with rfl | hx'
      · exact keyLt_of_not_lt_of_ne (Bool.not_eq_true _ ▸ hlt) heq
      · exact h1 x hx'

theorem insertList_append_of_forall_lt {k : List Char} {v : CacheEntry}
    {es : List (List Char × CacheEntry)}
    (h : ∀ x ∈ es, keyLt x.1 k = true) :
    insertList k v es = es ++ [(k, v)] := by
  induction es with
  | nil => rfl
  | cons p rest ih =>
    obtain ⟨k', v'⟩ := p
    have hk' : keyLt k' k = true := h (k', v') (List.mem_cons_self _ _)
    unfold insertList
    rw [if_neg (by simp [keyLt_asymm hk']), if_neg ?_]
    · rw [List.cons_append, ih (fun x hx => h x (List.mem_cons_of_mem _ hx))]
    · intro he
      subst he
      rw [keyLt_irrefl] at hk'
      exact absurd hk' (by simp)

theorem insertSeq_entries (l : List (List Char × CacheEntry)) :
    ∀ c : Cache, (c.insertSeq l).entries =
      l.foldl (fun es p => insertList p.1 p.2 es) c.entries := by
  induction l with
  | nil => intro c; rfl
  | cons p rest ih =>
    intro c
    unfold Cache.insertSeq at ih ⊢
    rw [List.foldl_cons, List.foldl_cons, ih]
    rfl

theorem foldl_insertList_sorted (l : List (List Char × CacheEntry)) :
    ∀ es₀, es₀.Pairwise (fun a b => keyLt a.1 b.1 = true) →
      (l.foldl (fun es p => insertList p.1 p.2 es) es₀).Pairwise
        (fun a b => keyLt a.1 b.1 = true) := by
  induction l with
  | nil => intro es₀ h; exact h
  | cons p rest ih =>
    intro es₀ h
    rw [List.foldl_cons]
    exact ih _ (insertList_sorted h)

theorem foldl_insertList_of_sorted (es : List (List Char × CacheEntry))
    (h : es.Pairwise (fun a b => keyLt a.1 b.1 = true)) :
    es.foldl (fun acc p => insertList p.1 p.2 acc) [] = es := by
  induction es using List.reverseRecOn with
  | nil => rfl
  | append_singleton es' x ih =>
    rw [List.foldl_append, List.foldl_cons, List.foldl_nil]
    rw [List.pairwise_append] at h
    rw [ih h.1]
    exact insertList_append_of_forall_lt
      (fun y hy => h.2.2 y hy x (List.mem_singleton.mpr rfl))

theorem assocGet_foldl_insertList (l : List (List Char × CacheEntry)) :
    ∀ (es₀ : List (List Char × CacheEntry)) (k : List Char),
      assocGet k (l.foldl (fun es p => insertList p.1 p.2 es) es₀) =
        match lastInserted l k with
        | some v => some v
        | none => assocGet k es₀ := by
  induction l with
  | nil => intro es₀ k; rfl
  | cons p rest ih =>
    intro es₀ k
    rw [List.foldl_cons, ih]
    cases hl : lastInserted rest k with
    | some v => simp [lastInserted, hl]
    | none =>
      by_cases hk : p.1 = k
      · subst hk
        rw [assocGet_insertList_self]
        simp [lastInserted, hl]
      · rw [assocGet_insertList_ne _ _ _ _ (Ne.symm hk)]
        simp [lastInserted, hl, hk]

theorem mem_foldl_insertList {x : List Char × CacheEntry}
    (l : List (List Char × CacheEntry)) :
    ∀ es₀, x ∈ l.foldl (fun es p => insertList p.1 p.2 es) es₀ →
      x ∈ es₀ ∨ x ∈ l := by
  induction l with
  | nil => intro es₀ h; exact Or.inl h
  | cons p rest ih =>
    intro es₀ h
    rw [List.foldl_cons] at h
    rcases ih _ h with h' | h'
    · rcases mem_insertList h' with rfl | h''
      · exact Or.inr (List.mem_cons_self _ _)
      · exact Or.inl h''
    · exact Or.inr (List.mem_cons_of_mem _ h')

theorem charDigit?_decChar {d : Nat} (h : d < 10) :
    charDigit? (decChar d) = some d := by
  interval_cases d <;> decide

theorem charHexDigit?_hexChar {d : Nat} (h : d < 16) :
    charHexDigit? (hexChar d) = some d := by
  interval_cases d <;> decide

theorem decChar_ne {d : Nat} (h : d < 10) :
    decChar d ≠ ',' ∧ decChar d ≠ '\n' ∧ decChar d ≠ '.' := by
  interval_cases d <;> decide

theorem hexChar_ne {d : Nat} (h : d < 16) :
    hexChar d ≠ ',' ∧ hexChar d ≠ '\n' := by
  interval_cases d <;> decide

theorem parseDigits_cons (c : Char) (cs : List Char) :
    parseDigits (c :: cs) =
      match charDigit? c, parseDigits cs with
      | some d, some ds => some (d :: ds)
      | _, _ => none := rfl

theorem parseDigits_append (as bs : List Char) :
    parseDigits (as ++ bs) =
      match parseDigits as, parseDigits bs with
      | some x, some y => some (x ++ y)
      | _, _ => none := by
  induction as with
  | nil =>
    show parseDigits bs = _
    cases parseDigits bs <;> rfl
  | cons c cs ih =>
    rw [List.cons_append, parseDigits_cons, parseDigits_cons, ih]
    cases charDigit? c <;> cases parseDigits cs <;> cases parseDigits bs <;> rfl

theorem parseDigits_replicate_zero (z : Nat) :
    parseDigits (List.replicate z '0') = some (List.replicate z 0) := by
  induction z with
  | zero => rfl
  | succ n ih =>
    rw [List.replicate_succ, List.replicate_succ]
    show (match charDigit? '0', parseDigits (List.replicate n '0') with
      | some d, some ds => some (d :: ds)
      | _, _ => none) = _
    rw [ih]
    rfl

theorem parseDigits_map_decChar {ds : List Nat} (h : ∀ d ∈ ds, d < 10) :
    parseDigits (ds.map decChar) = some ds := by
  induction ds with
  | nil => rfl
  | cons d rest ih =>
    rw [List.map_cons]
    show (match charDigit? (decChar d), parseDigits (rest.map decChar) with
      | some d, some ds => some (d :: ds)
      | _, _ => none) = _
    rw [charDigit?_decChar (h d (List.mem_cons_self _ _)),
      ih (fun x hx => h x (List.mem_cons_of_mem _ hx))]

theorem parseHexDigits_cons (c : Char) (cs : List Char) :
    parseHexDigits (c :: cs) =
      match charHexDigit? c, parseHexDigits cs with
      | some d, some ds => some (d :: ds)
      | _, _ => none := rfl

theorem parseHexDigits_append (as bs : List Char) :
    parseHexDigits (as ++ bs) =
      match parseHexDigits as, parseHexDigits bs with
      | some x, some y => some (x ++ y)
      | _, _ => none := by
  induction as with
  | nil =>
    show parseHexDigits bs = _
    cases parseHexDigits bs <;> rfl
  | cons c cs ih =>
    rw [List.cons_append, parseHexDigits_cons, parseHexDigits_cons, ih]
    cases charHexDigit? c <;> cases parseHexDigits cs <;>
      cases parseHexDigits bs <;> rfl

theorem parseHexDigits_replicate_zero (z : Nat) :
    parseHexDigits (List.replicate z '0') = some (List.replicate z 0) := by
  induction z with
  | zero => rfl
  | succ n ih =>
    rw [List.replicate_succ, List.replicate_succ]
    show (match charHexDigit? '0', parseHexDigits (List.replicate n '0') with
      | some d, some ds => some (d :: ds)
      | _, _ => none) = _
    rw [ih]
    rfl

theorem parseHexDigits_map_hexChar {ds : List Nat} (h : ∀ d ∈ ds, d < 16) :
    parseHexDigits (ds.map hexChar) = some ds := by
  induction ds with
  | nil => rfl
  | cons d rest ih =>
    rw [List.map_cons]
    show (match charHexDigit? (hexChar d), parseHexDigits (rest.map hexChar)
      with
      | some d, some ds => some (d :: ds)
      | _, _ => none) = _
    rw [charHexDigit?_hexChar (h d (List.mem_cons_self _ _)),
      ih (fun x hx => h x (List.mem_cons_of_mem _ hx))]

theorem ofDigits_replicate_zero (b z : Nat) :
    Nat.ofDigits b (List.replicate z 0) = 0 := by
  induction z with
  | zero => rfl
  | succ n ih =>
    rw [List.replicate_succ, Nat.ofDigits_cons, ih]
    simp

theorem ofDigits_append_replicate_zero (b : Nat) (l : List Nat) (z : Nat) :
    Nat.ofDigits b (l ++ List.replicate z 0) = Nat.ofDigits b l := by
  rw [Nat.ofDigits_append, ofDigits_replicate_zero]
  simp

theorem digits_len_le_of_lt_pow {b m w : Nat} (hb : 1 < b) (h : m < b ^ w) :
    (Nat.digits b m).length ≤ w := by
  by_cases hm : m = 0
  · subst hm
    simp
  · rw [Nat.digits_len b m hb hm]
    have := Nat.log_lt_of_lt_pow hm h
    omega

theorem digitsBase_eq_digits {b : Nat} (hb : 2 ≤ b) :
    ∀ fuel n : Nat, n ≤ fuel → digitsBase b fuel n = Nat.digits b n := by
  intro fuel
  induction fuel with
  | zero =>
    intro n hn
    interval_cases n
    simp [digitsBase]
  | succ f ih =>
    intro n hn
    by_cases h0 : n = 0
    · subst h0
      simp [digitsBase]
    · rw [show digitsBase b (f + 1) n
        = if n = 0 then [] else n % b :: digitsBase b f (n / b) from rfl]
      rw [if_neg h0]
      have hdiv : n / b < n := Nat.div_lt_self (by omega) (by omega)
      rw [ih (n / b) (by omega)]
      rw [Nat.digits_def' (b := b) (show 1 < b by omega) (show 0 < n by omega)]

theorem natDigits_eq {b : Nat} (hb : 2 ≤ b) (n : Nat) :
    natDigits b n = Nat.digits b n :=
  digitsBase_eq_digits hb n n (le_refl n)

theorem digitsBE_lt {n d : Nat} (h : d ∈ digitsBE n) : d < 10 := by
  unfold digitsBE at h
  split at h
  · rcases List.mem_singleton.mp h with rfl
    omega
  · rw [natDigits_eq (by omega)] at h
    exact Nat.digits_lt_base (by omega) (List.mem_reverse.mp h)

theorem digitsBE_ofDigits (n : Nat) :
    Nat.ofDigits 10 (digitsBE n).reverse = n := by
  unfold digitsBE
  split
  · rename_i h
    subst h
    rfl
  · rw [natDigits_eq (by omega), List.reverse_reverse, Nat.ofDigits_digits]

theorem printNat_eq_map (n : Nat) : printNat n = (digitsBE n).map decChar := by
  unfold printNat digitsBE
  split
  · rfl
  · rw [List.map_reverse]

theorem parseDigits_printNat (n : Nat) :
    parseDigits (printNat n) = some (digitsBE n) := by
  rw [printNat_eq_map]
  exact parseDigits_map_decChar (fun d hd => digitsBE_lt hd)

theorem printNat_ne_nil (n : Nat) : printNat n ≠ [] := by
  rw [printNat_eq_map]
  unfold digitsBE
  split
  · simp
  · rename_i h
    rw [natDigits_eq (by omega)]
    simp [Nat.digits_ne_nil_iff_ne_zero.mpr h]

theorem mem_printNat {c : Char} {n : Nat} (h : c ∈ printNat n) :
    ∃ d, d < 10 ∧ c = decChar d := by
  rw [printNat_eq_map] at h
  obtain ⟨d, hd, rfl⟩ := List.mem_map.mp h
  exact ⟨d, digitsBE_lt hd, rfl⟩

theorem printNat_length_le {n w : Nat} (hw : 1 ≤ w) (h : n < 10 ^ w) :
    (printNat n).length ≤ w := by
  rw [printNat_eq_map, List.length_map]
  unfold digitsBE
  split
  · simpa using hw
  · rw [natDigits_eq (by omega), List.length_reverse]
    exact digits_len_le_of_lt_pow (by omega) h

theorem parseNat?_printNat (n : Nat) : parseNat? (printNat n) = some n := by
  unfold parseNat?
  rw [parseDigits_printNat]
  show (if printNat n = [] then none
    else some (Nat.ofDigits 10 (digitsBE n).reverse)) = some n
  rw [if_neg (printNat_ne_nil n), digitsBE_ofDigits]

theorem parseU32?_printNat {n : Nat} (h : n < 2 ^ 32) :
    parseU32? (printNat n) = some n := by
  unfold parseU32?
  rw [parseNat?_printNat]
  show (if n < 2 ^ 32 then some n else none) = some n
  rw [if_pos h]

theorem splitOnChar_cons (sep c : Char) (rest : List Char) :
    splitOnChar sep (c :: rest) =
      if c = sep then [] :: splitOnChar sep rest
      else
        match splitOnChar sep rest with
        | s :: ss => (c :: s) :: ss
        | [] => [[c]] := rfl

theorem splitOnChar_append (sep : Char) (as bs : List Char)
    (h : sep ∉ as) :
    splitOnChar sep (as ++ sep :: bs) = as :: splitOnChar sep bs := by
  induction as with
  | nil =>
    rw [List.nil_append, splitOnChar_cons, if_pos rfl]
  | cons c cs ih =>
    have hc : ¬(c = sep) := fun he => h (he ▸ List.mem_cons_self _ _)
    have hcs : sep ∉ cs := fun hm => h (List.mem_cons_of_mem _ hm)
    rw [List.cons_append, splitOnChar_cons, if_neg hc, ih hcs]

theorem splitOnChar_of_not_mem {sep : Char} {as : List Char} (h : sep ∉ as) :
    splitOnChar sep as = [as] := by
  induction as with
  | nil => rfl
  | cons c cs ih =>
    have hc : ¬(c = sep) := fun he => h (he ▸ List.mem_cons_self _ _)
    have hcs : sep ∉ cs := fun hm => h (List.mem_cons_of_mem _ hm)
    rw [splitOnChar_cons, if_neg hc, ih hcs]

theorem mem_padZeros {c : Char} {w : Nat} {cs : List Char}
    (h : c ∈ padZeros w cs) : c = '0' ∨ c ∈ cs := by
  unfold padZeros at h
  rcases List.mem_append.mp h with h' | h'
  · exact Or.inl (List.eq_of_mem_replicate h')
  · exact Or.inr h'

theorem mem_printHash {c : Char} {h : Nat} (hc : c ∈ printHash h) :
    ∃ d, d < 16 ∧ c = hexChar d := by
  unfold printHash at hc
  rw [natDigits_eq (by omega)] at hc
  rcases mem_padZeros hc with rfl | hc'
  · exact ⟨0, by omega, rfl⟩
  · obtain ⟨d, hd, rfl⟩ := List.mem_map.mp (List.mem_reverse.mp hc')
    exact ⟨d, Nat.digits_lt_base (by omega) hd, rfl⟩

theorem mem_printMtime {c : Char} {m : Nat} (hc : c ∈ printMtime m) :
    c = '.' ∨ ∃ d, d < 10 ∧ c = decChar d := by
  unfold printMtime at hc
  rcases List.mem_append.mp hc with h' | h'
  · exact Or.inr (mem_printNat h')
  · rcases List.mem_cons.mp h' with rfl | h''
    · exact Or.inl rfl
    · rcases mem_padZeros h'' with rfl | h3
      · exact Or.inr ⟨0, by omega, rfl⟩
      · exact Or.inr (mem_printNat h3)

theorem printMtimeField_no_comma {mt : Option Nat} :
    ',' ∉ printMtimeField mt ∧ '\n' ∉ printMtimeField mt := by
  cases mt with
  | none => exact ⟨by simp [printMtimeField], by simp [printMtimeField]⟩
  | some m =>
    constructor
    · intro hc
      rcases mem_printMtime hc with h | ⟨d, hd, h⟩
      · exact absurd h (by decide)
      · exact (decChar_ne hd).1 h.symm
    · intro hc
      rcases mem_printMtime hc with h | ⟨d, hd, h⟩
      · exact absurd h (by decide)
      · exact (decChar_ne hd).2.1 h.symm

theorem printNat_no_comma {n : Nat} :
    ',' ∉ printNat n ∧ '\n' ∉ printNat n := by
  constructor
  · intro hc
    obtain ⟨d, hd, h⟩ := mem_printNat hc
    exact (decChar_ne hd).1 h.symm
  · intro hc
    obtain ⟨d, hd, h⟩ := mem_printNat hc
    exact (decChar_ne hd).2.1 h.symm

theorem printHash_no_comma {h : Nat} :
    ',' ∉ printHash h ∧ '\n' ∉ printHash h := by
  constructor
  · intro hc
    obtain ⟨d, hd, he⟩ := mem_printHash hc
    exact (hexChar_ne hd).1 he.symm
  · intro hc
    obtain ⟨d, hd, he⟩ := mem_printHash hc
    exact (hexChar_ne hd).2 he.symm

theorem parseHash?_printHash {h : Nat} (hh : h < 2 ^ 128) :
    parseHash? (printHash h) = some h := by
  have h16 : h < 16 ^ 32 := by
    have : (16 : Nat) ^ 32 = 2 ^ 128 := by norm_num
    omega
  have hlen : ((Nat.digits 16 h).map hexChar).reverse.length ≤ 32 := by
    rw [List.length_reverse, List.length_map]
    exact digits_len_le_of_lt_pow (by omega) h16
  have hmap : parseHexDigits (((Nat.digits 16 h).map hexChar).reverse)
      = some ((Nat.digits 16 h).reverse) := by
    rw [← List.map_reverse]
    exact parseHexDigits_map_hexChar
      (fun d hd => Nat.digits_lt_base (by omega) (List.mem_reverse.mp hd))
  unfold parseHash? printHash padZeros
  rw [natDigits_eq (by omega)]
  rw [parseHexDigits_append, parseHexDigits_replicate_zero, hmap]
  show (if (List.replicate (32 - ((Nat.digits 16 h).map hexChar).reverse.length)
        '0' ++ ((Nat.digits 16 h).map hexChar).reverse).length = 32 then
      some (Nat.ofDigits 16
        ((List.replicate (32 - ((Nat.digits 16 h).map hexChar).reverse.length)
          0 ++ (Nat.digits 16 h).reverse)).reverse)
    else none) = some h
  rw [if_pos (by
    rw [List.length_append, List.length_replicate]
    omega)]
  rw [List.reverse_append, List.reverse_reverse, List.reverse_replicate,
    ofDigits_append_replicate_zero, Nat.ofDigits_digits]

theorem parseMtime?_printMtime (m : Nat) :
    parseMtime? (printMtime m) = some m := by
  have hdot1 : '.' ∉ printNat (m / 1000000) := by
    intro hc
    obtain ⟨d, hd, he⟩ := mem_printNat hc
    exact (decChar_ne hd).2.2 he.symm
  have hdot2 : '.' ∉ padZeros 6 (printNat (m % 1000000)) := by
    intro hc
    rcases mem_padZeros hc with he | hc'
    · exact absurd he (by decide)
    · obtain ⟨d, hd, he⟩ := mem_printNat hc'
      exact (decChar_ne hd).2.2 he.symm
  have hfraclen : (printNat (m % 1000000)).length ≤ 6 :=
    printNat_length_le (by omega)
      (by
        have : m % 1000000 < 1000000 := Nat.mod_lt _ (by omega)
        omega)
  have hpad : parseDigits (padZeros 6 (printNat (m % 1000000)))
      = some (List.replicate (6 - (printNat (m % 1000000)).length) 0
          ++ digitsBE (m % 1000000)) := by
    unfold padZeros
    rw [parseDigits_append, parseDigits_replicate_zero, parseDigits_printNat]
  unfold parseMtime? printMtime
  rw [splitOnChar_append _ _ _ hdot1, splitOnChar_of_not_mem hdot2]
  show (match parseDigits (printNat (m / 1000000)),
      parseDigits (padZeros 6 (printNat (m % 1000000))) with
    | some ids, some fds =>
      if printNat (m / 1000000) ≠ [] ∧
          (padZeros 6 (printNat (m % 1000000))).length = 6 then
        some (Nat.ofDigits 10 ids.reverse * 1000000
          + Nat.ofDigits 10 fds.reverse)
      else none
    | _, _ => none) = some m
  rw [parseDigits_printNat, hpad]
  show (if printNat (m / 1000000) ≠ [] ∧
      (padZeros 6 (printNat (m % 1000000))).length = 6 then
    some (Nat.ofDigits 10 (digitsBE (m / 1000000)).reverse * 1000000
      + Nat.ofDigits 10 (List.replicate (6 - (printNat (m % 1000000)).length) 0
          ++ digitsBE (m % 1000000)).reverse)
    else none) = some m
  rw [if_pos ⟨printNat_ne_nil _, by
    unfold padZeros
    rw [List.length_append, List.length_replicate]
    omega⟩]
  rw [List.reverse_append, List.reverse_replicate,
    ofDigits_append_replicate_zero, digitsBE_ofDigits, digitsBE_ofDigits]
  congr 1
  omega

theorem entryLine_no_newline {k : List Char} {e : CacheEntry}
    (hk : '\n' ∉ k) : '\n' ∉ entryLine k e := by
  unfold entryLine
  intro hmem
  simp only [List.append_assoc, List.cons_append, List.mem_append,
    List.mem_cons] at hmem
  rcases hmem with h | h | h | h | h | h | h
  · exact hk h
  · exact absurd h (by decide)
  · exact printMtimeField_no_comma.2 h
  · exact absurd h (by decide)
  · exact printNat_no_comma.2 h
  · exact absurd h (by decide)
  · exact printHash_no_comma.2 h

theorem parseLine_entryLine {k : List Char} {e : CacheEntry}
    (hk : ',' ∉ k) (hsize : e.size < 2 ^ 32) (hhash : e.hash < 2 ^ 128) :
    parseLine (entryLine k e) = some (k, e) := by
  obtain ⟨mt, size, hash⟩ := e
  unfold parseLine entryLine
  simp only [List.append_assoc, List.cons_append]
  rw [splitOnChar_append _ _ _ hk,
    splitOnChar_append _ _ _ printMtimeField_no_comma.1,
    splitOnChar_append _ _ _ printNat_no_comma.1,
    splitOnChar_of_not_mem printHash_no_comma.1]
  show ((match parseU32? (printNat size), parseHash? (printHash hash) with
    | some sz, some hs =>
      some (k, CacheEntry.mk (parseMtime? (printMtimeField mt)) sz hs)
    | _, _ => none) : Option (List Char × CacheEntry))
    = some (k, CacheEntry.mk mt size hash)
  rw [parseU32?_printNat hsize, parseHash?_printHash hhash]
  show some (k, CacheEntry.mk (parseMtime? (printMtimeField mt)) size hash)
    = some (k, CacheEntry.mk mt size hash)
  cases mt with
  | none => rfl
  | some m =>
    rw [show printMtimeField (some m) = printMtime m from rfl,
      parseMtime?_printMtime]

theorem linesOf_flatten (lns : List (List Char))
    (h : ∀ l ∈ lns, '\n' ∉ l) :
    linesOf ((lns.map (fun l => l ++ ['\n'])).flatten) = lns := by
  have key : splitOnChar '\n' ((lns.map (fun l => l ++ ['\n'])).flatten)
      = lns ++ [[]] := by
    induction lns with
    | nil => rfl
    | cons l rest ih =>
      rw [List.map_cons, List.flatten_cons, List.append_assoc]
      rw [show ['\n'] ++ (rest.map (fun l => l ++ ['\n'])).flatten
        = '\n' :: (rest.map (fun l => l ++ ['\n'])).flatten from rfl]
      rw [splitOnChar_append _ _ _ (h l (List.mem_cons_self _ _)),
        ih (fun x hx => h x (List.mem_cons_of_mem _ hx))]
      rfl
  unfold linesOf
  rw [key]
  show (if (lns ++ [[]]).getLast? = some [] then (lns ++ [[]]).dropLast
    else lns ++ [[]]) = lns
  rw [List.getLast?_concat, if_pos rfl, List.dropLast_concat]

theorem loadLines_entryLines (es : List (List Char × CacheEntry))
    (h : ∀ p ∈ es, parseLine (entryLine p.1 p.2) = some p) :
    ∀ c₀ : Cache,
      loadLines c₀ (es.map (fun p => entryLine p.1 p.2))
        = .ok (c₀.insertSeq es) := by
  induction es with
  | nil => intro c₀; rfl
  | cons p rest ih =>
    intro c₀
    rw [List.map_cons]
    show (match parseLine (entryLine p.1 p.2) with
      | some ke =>
        loadLines (c₀.insert ⟨ke.1⟩ ke.2)
          (rest.map (fun q : List Char × CacheEntry => entryLine q.1 q.2))
      | none => .error .badLine) = _
    rw [h p (List.mem_cons_self _ _)]
    show loadLines (c₀.insert ⟨p.1⟩ p.2)
      (rest.map (fun q : List Char × CacheEntry => entryLine q.1 q.2)) = _
    rw [ih (fun x hx => h x (List.mem_cons_of_mem _ hx))]
    rfl

/-- **C7, amended**: for any finite sequence of insert calls whose keys
contain no comma and no newline and whose entries carry a `u32` size and a
128-bit hash (as every entry the patcher produces does), saving the
resulting cache and loading the saved bytes into a fresh cache reproduces
the cache exactly, and `get` returns the last value inserted for every
key. -/
theorem cache_save_load_roundtrip (l : List (List Char × CacheEntry))
    (hWF : ∀ p ∈ l, EntryWF p) :
    Cache.load Cache.new (.content (Cache.new.insertSeq l).saveString)
      = .ok (Cache.new.insertSeq l) ∧
    ∀ k : List Char, (Cache.new.insertSeq l).get ⟨k⟩ = lastInserted l k := by
  have hent : (Cache.new.insertSeq l).entries
      = l.foldl (fun es p => insertList p.1 p.2 es) [] :=
    insertSeq_entries l Cache.new
  have hsorted : (Cache.new.insertSeq l).entries.Pairwise
      (fun a b => keyLt a.1 b.1 = true) := by
    rw [hent]
    exact foldl_insertList_sorted l [] List.Pairwise.nil
  have hsub : ∀ p ∈ (Cache.new.insertSeq l).entries, p ∈ l := by
    intro p hp
    rw [hent] at hp
    rcases mem_foldl_insertList l [] hp with h' | h'
    · exact absurd h' (List.not_mem_nil p)
    · exact h'
  have hWFe : ∀ p ∈ (Cache.new.insertSeq l).entries, EntryWF p :=
    fun p hp => hWF p (hsub p hp)
  constructor
  · show loadLines Cache.new (linesOf (Cache.saveString _)) = _
    have hflat : Cache.saveString (Cache.new.insertSeq l)
        = (((Cache.new.insertSeq l).entries.map
            (fun p => entryLine p.1 p.2)).map (fun ln => ln ++ ['\n'])).flatten := by
      unfold Cache.saveString
      rw [List.map_map]
      rfl
    rw [hflat, linesOf_flatten _ (by
      intro ln hln
      obtain ⟨p, hp, rfl⟩ := List.mem_map.mp hln
      exact entryLine_no_newline (hWFe p hp).1.2)]
    rw [loadLines_entryLines _ (fun p hp =>
      parseLine_entryLine (hWFe p hp).1.1 (hWFe p hp).2.1 (hWFe p hp).2.2) _]
    have he : Cache.new.insertSeq ((Cache.new.insertSeq l).entries)
        = Cache.new.insertSeq l := by
      have h2 : (Cache.new.insertSeq ((Cache.new.insertSeq l).entries)).entries
          = (Cache.new.insertSeq l).entries := by
        rw [insertSeq_entries]
        show List.foldl _ Cache.new.entries _ = _
        exact foldl_insertList_of_sorted _ hsorted
      exact congrArg Cache.mk h2
    rw [he]
  · intro k
    show assocGet k (Cache.new.insertSeq l).entries = lastInserted l k
    rw [hent, assocGet_foldl_insertList]
    cases lastInserted l k <;> rfl

/-- Witness for the amended C7: a concrete insert-save-load run reproduces
the cache and `get` returns the inserted entry. -/
theorem cache_save_load_roundtrip_witness :
    Cache.load Cache.new (.content (Cache.new.insertSeq seqA).saveString)
      = .ok (Cache.new.insertSeq seqA) ∧
    (Cache.new.insertSeq seqA).get ⟨['a']⟩ = lastInserted seqA ['a'] := by
  have h := cache_save_load_roundtrip seqA (by
    intro p hp
    have hp' : p = (['a'], ⟨some 1, 10, 7⟩) := by simpa [seqA] using hp
    subst hp'
    exact ⟨⟨by decide, by decide⟩, by decide, by decide⟩)
  exact ⟨h.1, h.2 ['a']⟩

set_option maxRecDepth 8000 in
/-- **C7, counterexample**: the claim fails for a key containing a comma —
the saved line `a,b,,0,0…0` re-parses with key `a` and an unparseable size
field, so loading the saved store fails outright and no fresh cache with
the inserted entry exists. -/
theorem cache_save_load_roundtrip_counterexample :
    ¬ ∃ c₂ : Cache,
        Cache.load Cache.new
            (.content (Cache.new.insertSeq seqBad).saveString) = .ok c₂ ∧
        c₂.get ⟨['a', ',', 'b']⟩ = some ⟨none, 0, 0⟩ := by
  rintro ⟨c₂, hload, -⟩
  have herr : Cache.load Cache.new
      (.content (Cache.new.insertSeq seqBad).saveString)
      = .error .badLine := by rfl
  rw [herr] at hload
  exact Except.noConfusion hload

end LuxPatcher
